import Mathlib

/-!
Verification of the comment-section composition engine of the Cerebrus CI bot
(`bin/ci-pr-validation`, module `comment-sections.js`).

JS strings are modelled as `List Char`.  The regex
`new RegExp(config.start + "([\\s\\S]*?)" + config.end)` used by the parser is
a literal-substring span match (the markers contain no regex metacharacters):
it matches at the earliest position where the start marker occurs with the end
marker occurring somewhere after it, and the captured group extends to the
nearest following end marker.  `matchSpan` below implements exactly that.
-/

namespace Cerebrus

/-- `pfx p s`: `p` is a prefix of `s` (occurrence of `p` at position 0). -/
def pfx (p s : List Char) : Prop := ∃ t, p ++ t = s

/-- `infx m s`: `m` occurs somewhere in `s` as a contiguous substring. -/
def infx (m s : List Char) : Prop := ∃ u v, u ++ m ++ v = s

/-- Boolean substring test mirroring `pfx` positions left to right. -/
def hasSub (m : List Char) : List Char → Bool
  | [] => m.isPrefixOf []
  | s@(_ :: rest) => m.isPrefixOf s || hasSub m rest

/-- `const CEREBRUS_IDENTIFIER = "<!-- TiddlyWiki PR report -->"`. -/
def CEREBRUS_IDENTIFIER : List Char := "<!-- TiddlyWiki PR report -->".toList

/-- The three registered section identifiers (keys of the `SECTIONS` object). -/
inductive SectionKey
  | BUILD_SIZE
  | PATH_VALIDATION
  | CHANGE_NOTE
deriving DecidableEq, Repr, Fintype

/-- A registry entry: `{priority, start, end}`.  The JS field `end` is a
reserved word in Lean and is called `stop` here. -/
structure SectionConfig where
  priority : Nat
  start : List Char
  stop : List Char
deriving DecidableEq, Repr

/-- The `SECTIONS` registry object of `comment-sections.js`. -/
def SECTIONS : SectionKey → SectionConfig
  | .BUILD_SIZE =>
      { priority := 1
        start := "<!-- Build Size Section -->".toList
        stop := "<!-- End Build Size Section -->".toList }
  | .PATH_VALIDATION =>
      { priority := 2
        start := "<!-- Path Validation Section -->".toList
        stop := "<!-- End Path Validation Section -->".toList }
  | .CHANGE_NOTE =>
      { priority := 3
        start := "<!-- Change Note Section -->".toList
        stop := "<!-- End Change Note Section -->".toList }

/-- All registered markers, start and end, of the three registry entries. -/
def allMarkers : List (List Char) :=
  [(SECTIONS .BUILD_SIZE).start, (SECTIONS .BUILD_SIZE).stop,
   (SECTIONS .PATH_VALIDATION).start, (SECTIONS .PATH_VALIDATION).stop,
   (SECTIONS .CHANGE_NOTE).start, (SECTIONS .CHANGE_NOTE).stop]

/-- Own-property lookup in the `SECTIONS` object: `some k` exactly when the
caller-supplied string is one of the three registered keys.  Note that the
source's guard `!SECTIONS[sectionKey]` is *not* equivalent to this lookup
failing: JS bracket lookup on a plain object literal also finds inherited,
truthy `Object.prototype` members, so the guard lets keys such as
`"constructor"` through (see `sectionsBracketTruthy` and C5).  The operations
below use the own-property reading, which agrees with the source whenever the
key is registered or is not an inherited member name. -/
def lookupSection : String → Option SectionKey
  | "BUILD_SIZE" => some .BUILD_SIZE
  | "PATH_VALIDATION" => some .PATH_VALIDATION
  | "CHANGE_NOTE" => some .CHANGE_NOTE
  | _ => none

/-- JS whitespace recognised by `String.prototype.trim` (the characters that
can actually appear here). -/
def isWs (c : Char) : Bool :=
  c == ' ' || c == '\t' || c == '\n' || c == '\r' || c == '\x0b' || c == '\x0c'

/-- `String.prototype.trim`: drop leading and trailing whitespace. -/
def trimList (s : List Char) : List Char :=
  ((s.dropWhile isWs).reverse.dropWhile isWs).reverse

/-- The lazy group `([\s\S]*?)` followed by the literal end marker: the
content up to the nearest occurrence of `e`, or `none` when `e` never
occurs. -/
def takeUntil (e : List Char) : List Char → Option (List Char)
  | [] => if e.isPrefixOf ([] : List Char) then some [] else none
  | c :: rest =>
    if e.isPrefixOf (c :: rest) then some []
    else
      match takeUntil e rest with
      | some t => some (c :: t)
      | none => none

/-- First match of the regex `s([\s\S]*?)e` in a body: scan positions left to
right; at the first position where `s` occurs and `e` occurs after it, return
the captured group. -/
def matchSpan (s e : List Char) : List Char → Option (List Char)
  | [] => if s.isPrefixOf ([] : List Char) then takeUntil e [] else none
  | c :: rest =>
    if s.isPrefixOf (c :: rest) then
      match takeUntil e ((c :: rest).drop s.length) with
      | some t => some t
      | none => matchSpan s e rest
    else matchSpan s e rest

/-- The result of `parseCommentSections`: for each registered key, the
trimmed captured content, when the span matched.  (The JS object also stores
the registry config next to the content, but the config is determined by the
key.) -/
structure Sections where
  buildSize : Option (List Char)
  pathValidation : Option (List Char)
  changeNote : Option (List Char)
deriving DecidableEq, Repr

def emptySections : Sections := ⟨none, none, none⟩

def getSection (s : Sections) : SectionKey → Option (List Char)
  | .BUILD_SIZE => s.buildSize
  | .PATH_VALIDATION => s.pathValidation
  | .CHANGE_NOTE => s.changeNote

def setSection (s : Sections) : SectionKey → List Char → Sections
  | .BUILD_SIZE, c => { s with buildSize := some c }
  | .PATH_VALIDATION, c => { s with pathValidation := some c }
  | .CHANGE_NOTE, c => { s with changeNote := some c }

/-- `delete sections[sectionKey]`. -/
def eraseSection (s : Sections) : SectionKey → Sections
  | .BUILD_SIZE => { s with buildSize := none }
  | .PATH_VALIDATION => { s with pathValidation := none }
  | .CHANGE_NOTE => { s with changeNote := none }

/-- One registry entry of `parseCommentSections`'s loop:
`commentBody.match(regex)` and `match[1].trim()`. -/
def parseOne (cfg : SectionConfig) (commentBody : List Char) : Option (List Char) :=
  (matchSpan cfg.start cfg.stop commentBody).map trimList

/-- `parseCommentSections(commentBody)`: the loop
`for (const [key, config] of Object.entries(SECTIONS))`. -/
def parseCommentSections (commentBody : List Char) : Sections :=
  { buildSize := parseOne (SECTIONS .BUILD_SIZE) commentBody
    pathValidation := parseOne (SECTIONS .PATH_VALIDATION) commentBody
    changeNote := parseOne (SECTIONS .CHANGE_NOTE) commentBody }

/-- The sections present in a `Sections` value, listed by registry priority
(1, 2, 3).  This is the value of
`Object.entries(sections).sort(([,a],[,b]) => a.priority - b.priority)`:
the three priorities are distinct, so the sort always yields priority order
regardless of object insertion order. -/
def optBlock (k : SectionKey) : Option (List Char) → List (SectionKey × List Char)
  | some c => [(k, c)]
  | none => []

def activeList (s : Sections) : List (SectionKey × List Char) :=
  optBlock .BUILD_SIZE s.buildSize ++
    (optBlock .PATH_VALIDATION s.pathValidation ++
      optBlock .CHANGE_NOTE s.changeNote)

/-- The six `parts.push` lines of `buildComment`'s `forEach` body for one
section: `'', section.start, '', section.content, '', section.end`. -/
def sectionParts (b : SectionKey × List Char) : List (List Char) :=
  [[], (SECTIONS b.1).start, [], b.2, [], (SECTIONS b.1).stop]

/-- The full `parts` list pushed by the `forEach` loop: each section's six
parts, with `'', '---'` after every section except the last. -/
def partsFor : List (SectionKey × List Char) → List (List Char)
  | [] => []
  | [b] => sectionParts b
  | b :: rest => sectionParts b ++ ([[], "---".toList] ++ partsFor rest)

/-- `buildComment(sections)`: `parts.join('\n')` with
`parts = [CEREBRUS_IDENTIFIER, ...]`. -/
def buildComment (sections : Sections) : List Char :=
  List.intercalate ['\n'] (CEREBRUS_IDENTIFIER :: partsFor (activeList sections))

/-- `updateCommentSection(existingBody, sectionKey, newContent)`.  The JS
`throw new Error(...)` is modelled as `Except.error`. -/
def updateCommentSection (existingBody : List Char) (sectionKey : String)
    (newContent : List Char) : Except String (List Char) :=
  match lookupSection sectionKey with
  | none => .error ("Unknown section key: " ++ sectionKey)
  | some k =>
    let sections := parseCommentSections existingBody
    .ok (buildComment (setSection sections k newContent))

/-- `removeCommentSection(existingBody, sectionKey)`; the JS `return null`
(delete the whole comment) is `Option.none` in the success value. -/
def removeCommentSection (existingBody : List Char) (sectionKey : String) :
    Except String (Option (List Char)) :=
  match lookupSection sectionKey with
  | none => .error ("Unknown section key: " ++ sectionKey)
  | some k =>
    let sections := eraseSection (parseCommentSections existingBody) k
    if sections = emptySections then .ok none
    else .ok (some (buildComment sections))

/-- `createCommentWithSection(sectionKey, content)`. -/
def createCommentWithSection (sectionKey : String) (content : List Char) :
    Except String (List Char) :=
  match lookupSection sectionKey with
  | none => .error ("Unknown section key: " ++ sectionKey)
  | some k => .ok (buildComment (setSection emptySections k content))

/-- The bit-exact rendered form of one section block: a blank line, the start
marker, a blank line, the content, a blank line, the end marker (as the
string fragment `"\n\n" + start + "\n\n" + content + "\n\n" + end`). -/
def blockStr (b : SectionKey × List Char) : List Char :=
  '\n' :: '\n' :: ((SECTIONS b.1).start ++ '\n' :: '\n' ::
    (b.2 ++ '\n' :: '\n' :: (SECTIONS b.1).stop))

/-- Consecutive section blocks joined by a blank line and a lone `---` line,
with no trailing separator after the last block. -/
def renderBlocks : List (SectionKey × List Char) → List Char
  | [] => []
  | [b] => blockStr b
  | b :: rest => blockStr b ++ ('\n' :: '\n' :: '-' :: '-' :: '-' :: renderBlocks rest)

/-- The bit-exact comment body format of §6 of the spec: the guard marker
first, then the section blocks. -/
def renderDoc (l : List (SectionKey × List Char)) : List Char :=
  CEREBRUS_IDENTIFIER ++ renderBlocks l

/-! ### Basic facts about `pfx`, `infx`, `hasSub` -/

theorem append_eq_append {a b c d : List Char} (h : a ++ b = c ++ d) :
    (∃ w, c = a ++ w ∧ b = w ++ d) ∨ (∃ w, a = c ++ w ∧ d = w ++ b) := by
  induction a generalizing c with
  | nil =>
    left
    exact ⟨c, rfl, h⟩
  | cons x a' ih =>
    cases c with
    | nil =>
      right
      exact ⟨x :: a', rfl, h.symm⟩
    | cons y c' =>
      injection h with h1 h2
      subst h1
      rcases ih h2 with ⟨w, hw1, hw2⟩ | ⟨w, hw1, hw2⟩
      · exact Or.inl ⟨w, by simp [hw1], hw2⟩
      · exact Or.inr ⟨w, by simp [hw1], hw2⟩

theorem isPrefixOf_iff : ∀ p s : List Char, p.isPrefixOf s = true ↔ pfx p s
  | [], s => by
    simp [List.isPrefixOf, pfx]
  | c :: p', [] => by
    simp [List.isPrefixOf, pfx]
  | c :: p', d :: s' => by
    simp only [List.isPrefixOf, Bool.and_eq_true, beq_iff_eq, isPrefixOf_iff p' s', pfx]
    constructor
    · rintro ⟨rfl, t, rfl⟩
      exact ⟨t, rfl⟩
    · rintro ⟨t, ht⟩
      injection ht with h1 h2
      exact ⟨h1, t, h2⟩

theorem pfx_append (s t : List Char) : pfx s (s ++ t) := ⟨t, rfl⟩

theorem pfx_nil (s : List Char) : pfx [] s := ⟨s, rfl⟩

theorem pfx_cases {m x y : List Char} (h : pfx m (x ++ y)) : pfx m x ∨ pfx x m := by
  obtain ⟨t, ht⟩ := h
  rcases append_eq_append ht with ⟨w, hw1, _⟩ | ⟨w, hw1, _⟩
  · exact Or.inl ⟨w, hw1.symm⟩
  · exact Or.inr ⟨w, hw1.symm⟩

theorem pfx_mem {m s : List Char} {c : Char} (h : pfx m s) (hc : c ∈ m) : c ∈ s := by
  obtain ⟨t, rfl⟩ := h
  exact List.mem_append_left t hc

theorem infx_nil {m : List Char} (h : infx m []) : m = [] := by
  obtain ⟨u, v, huv⟩ := h
  have := List.append_eq_nil.mp huv
  exact (List.append_eq_nil.mp this.1).2

theorem infx_of_pfx {m s : List Char} (h : pfx m s) : infx m s := by
  obtain ⟨t, rfl⟩ := h
  exact ⟨[], t, rfl⟩

theorem infx_refl (m : List Char) : infx m m := ⟨[], [], by simp⟩

theorem infx_cons_of {m rest : List Char} (c : Char) (h : infx m rest) :
    infx m (c :: rest) := by
  obtain ⟨u, v, rfl⟩ := h
  exact ⟨c :: u, v, rfl⟩

theorem infx_cons_elim {m rest : List Char} {c : Char} (h : infx m (c :: rest)) :
    pfx m (c :: rest) ∨ infx m rest := by
  obtain ⟨u, v, huv⟩ := h
  cases u with
  | nil => exact Or.inl ⟨v, by simpa using huv⟩
  | cons x u' =>
    injection huv with _ h2
    exact Or.inr ⟨u', v, h2⟩

/-- An occurrence in `a ++ x :: b` lies in `a`, lies in `b`, or contains `x`. -/
theorem infx_split {m a b : List Char} {x : Char} (h : infx m (a ++ x :: b)) :
    x ∈ m ∨ infx m a ∨ infx m b := by
  obtain ⟨u, v, huv⟩ := h
  rw [List.append_assoc] at huv
  rcases append_eq_append huv with ⟨w, hw1, hw2⟩ | ⟨w, hw1, hw2⟩
  · -- a = u ++ w, m ++ v = w ++ x :: b
    rcases append_eq_append hw2 with ⟨w', hw1', _⟩ | ⟨w', hw1', hw2'⟩
    · -- w = m ++ w' : m occurs inside a
      right; left
      exact ⟨u, w', by rw [hw1, hw1', List.append_assoc]⟩
    · -- m = w ++ w', x :: b = w' ++ v
      cases w' with
      | nil =>
        right; left
        exact ⟨u, [], by rw [hw1, hw1']; simp⟩
      | cons y w'' =>
        injection hw2' with hy _
        left
        rw [hw1', ← hy]
        exact List.mem_append_right w (List.mem_cons_self x w'')
  · -- u = a ++ w, x :: b = w ++ (m ++ v)
    cases w with
    | nil =>
      cases m with
      | nil => right; left; exact ⟨[], a, by simp⟩
      | cons y m' =>
        injection hw2 with hy _
        left
        rw [← hy]
        exact List.mem_cons_self x m'
    | cons y w' =>
      injection hw2 with _ h2
      right; right
      exact ⟨w', v, by rw [List.append_assoc]; exact h2.symm⟩

theorem hasSub_iff : ∀ s m : List Char, hasSub m s = true ↔ infx m s
  | [], m => by
    simp only [hasSub, isPrefixOf_iff]
    constructor
    · intro h
      exact infx_of_pfx h
    · intro h
      rw [infx_nil h]
      exact pfx_nil []
  | c :: rest, m => by
    simp only [hasSub, Bool.or_eq_true, isPrefixOf_iff, hasSub_iff rest m]
    constructor
    · rintro (h | h)
      · exact infx_of_pfx h
      · exact infx_cons_of c h
    · exact infx_cons_elim

theorem not_infx_of_hasSub {m s : List Char} (h : hasSub m s = false) : ¬ infx m s := by
  intro hi
  rw [← hasSub_iff] at hi
  rw [h] at hi
  exact Bool.false_ne_true hi

/-! ### Unfolding lemmas for `takeUntil` and `matchSpan` -/

theorem drop_len_append : ∀ (s t : List Char), (s ++ t).drop s.length = t
  | [], t => rfl
  | c :: s', t => by
    simp only [List.cons_append, List.length_cons, List.drop_succ_cons]
    exact drop_len_append s' t

theorem takeUntil_pos {e : List Char} {c : Char} {rest : List Char}
    (h : pfx e (c :: rest)) : takeUntil e (c :: rest) = some [] := by
  simp only [takeUntil, if_pos ((isPrefixOf_iff _ _).mpr h)]

theorem takeUntil_neg {e : List Char} {c : Char} {rest : List Char}
    (h : ¬ pfx e (c :: rest)) :
    takeUntil e (c :: rest) = (takeUntil e rest).map (c :: ·) := by
  have hb : e.isPrefixOf (c :: rest) = false := by
    cases hx : e.isPrefixOf (c :: rest) with
    | false => rfl
    | true => exact absurd ((isPrefixOf_iff _ _).mp hx) h
  simp only [takeUntil, hb]
  cases takeUntil e rest <;> simp

theorem matchSpan_cons_pos {s e : List Char} {c : Char} {rest t : List Char}
    (h : pfx s (c :: rest)) (ht : takeUntil e ((c :: rest).drop s.length) = some t) :
    matchSpan s e (c :: rest) = some t := by
  simp only [matchSpan, if_pos ((isPrefixOf_iff _ _).mpr h), ht]

theorem matchSpan_cons_pos_fail {s e : List Char} {c : Char} {rest : List Char}
    (h : pfx s (c :: rest)) (ht : takeUntil e ((c :: rest).drop s.length) = none) :
    matchSpan s e (c :: rest) = matchSpan s e rest := by
  simp only [matchSpan, if_pos ((isPrefixOf_iff _ _).mpr h), ht]

theorem matchSpan_cons_neg {s e : List Char} {c : Char} {rest : List Char}
    (h : ¬ pfx s (c :: rest)) :
    matchSpan s e (c :: rest) = matchSpan s e rest := by
  have hb : s.isPrefixOf (c :: rest) = false := by
    cases hx : s.isPrefixOf (c :: rest) with
    | false => rfl
    | true => exact absurd ((isPrefixOf_iff _ _).mp hx) h
  simp only [matchSpan, hb]
  simp

/-- `takeUntil` on `B ++ e ++ C` yields exactly `B` when no occurrence of `e`
begins strictly inside `B`. -/
theorem takeUntil_exact : ∀ (B : List Char) {C e : List Char},
    (∀ B1 ch B2, B = B1 ++ ch :: B2 → ¬ pfx e (ch :: (B2 ++ (e ++ C)))) →
    takeUntil e (B ++ (e ++ C)) = some B
  | [], C, e, _ => by
    cases e with
    | nil =>
      cases C with
      | nil => simp [takeUntil, List.isPrefixOf]
      | cons c r => simp [takeUntil, List.isPrefixOf]
    | cons ec e' =>
      have : ([] : List Char) ++ ((ec :: e') ++ C) = ec :: (e' ++ C) := by simp
      rw [this]
      exact takeUntil_pos ⟨C, by simp⟩
  | ch :: B', C, e, h => by
    have hne : ¬ pfx e (ch :: (B' ++ (e ++ C))) := h [] ch B' rfl
    have hstep : (ch :: B') ++ (e ++ C) = ch :: (B' ++ (e ++ C)) := by simp
    rw [hstep, takeUntil_neg hne,
      takeUntil_exact B' (fun B1 c' B2 hB => h (ch :: B1) c' B2 (by rw [hB]; rfl))]
    rfl

/-- The span match on `A ++ s ++ B ++ e ++ C` captures exactly `B` when no
occurrence of `s` begins strictly inside `A` and no occurrence of `e` begins
strictly inside `B`. -/
theorem matchSpan_exact : ∀ (A : List Char) {B C s e : List Char},
    s ≠ [] →
    (∀ A1 ch A2, A = A1 ++ ch :: A2 → ¬ pfx s (ch :: (A2 ++ (s ++ (B ++ (e ++ C)))))) →
    (∀ B1 ch B2, B = B1 ++ ch :: B2 → ¬ pfx e (ch :: (B2 ++ (e ++ C)))) →
    matchSpan s e (A ++ (s ++ (B ++ (e ++ C)))) = some B
  | [], B, C, s, e, hs, _, hB => by
    cases hsc : s with
    | nil => exact absurd hsc hs
    | cons sc s' =>
      subst hsc
      have hstep : ([] : List Char) ++ ((sc :: s') ++ (B ++ (e ++ C)))
          = sc :: (s' ++ (B ++ (e ++ C))) := by simp
      rw [hstep]
      apply matchSpan_cons_pos ⟨B ++ (e ++ C), by simp⟩
      have hdrop : (sc :: (s' ++ (B ++ (e ++ C)))).drop (sc :: s').length
          = B ++ (e ++ C) := by
        simp only [List.length_cons, List.drop_succ_cons]
        exact drop_len_append s' (B ++ (e ++ C))
      rw [hdrop]
      exact takeUntil_exact B hB
  | ch :: A', B, C, s, e, hs, hA, hB => by
    have hne : ¬ pfx s (ch :: (A' ++ (s ++ (B ++ (e ++ C))))) := hA [] ch A' rfl
    have hstep : (ch :: A') ++ (s ++ (B ++ (e ++ C)))
        = ch :: (A' ++ (s ++ (B ++ (e ++ C)))) := by simp
    rw [hstep, matchSpan_cons_neg hne]
    exact matchSpan_exact A' hs
      (fun A1 c' A2 hA' => hA (ch :: A1) c' A2 (by rw [hA']; rfl)) hB

/-- When the start marker never occurs, the span match fails. -/
theorem matchSpan_none : ∀ (doc : List Char) {s e : List Char},
    ¬ infx s doc → matchSpan s e doc = none
  | [], s, e, h => by
    have hs : s ≠ [] := fun hnil => h (by rw [hnil]; exact ⟨[], [], rfl⟩)
    cases hsc : s with
    | nil => exact absurd hsc hs
    | cons sc s' =>
      subst hsc
      simp [matchSpan, List.isPrefixOf]
  | c :: rest, s, e, h => by
    have h1 : ¬ pfx s (c :: rest) := fun hp => h (infx_of_pfx hp)
    rw [matchSpan_cons_neg h1]
    exact matchSpan_none rest (fun hi => h (infx_cons_of c hi))

/-! ### `List.intercalate ['\n']` computation and occurrence lemmas -/

theorem ic_nil : List.intercalate ['\n'] ([] : List (List Char)) = [] := rfl

theorem ic_single (p : List Char) : List.intercalate ['\n'] [p] = p := by
  simp [List.intercalate, List.intersperse_singleton]

theorem ic_cons2 (p q : List Char) (r : List (List Char)) :
    List.intercalate ['\n'] (p :: q :: r) =
      p ++ '\n' :: List.intercalate ['\n'] (q :: r) := by
  simp [List.intercalate, List.intersperse_cons_cons]

theorem ic_append : ∀ (P : List (List Char)) {Q : List (List Char)},
    P ≠ [] → Q ≠ [] →
    List.intercalate ['\n'] (P ++ Q) =
      List.intercalate ['\n'] P ++ '\n' :: List.intercalate ['\n'] Q
  | [], _, hP, _ => absurd rfl hP
  | [p], Q, _, hQ => by
    cases Q with
    | nil => exact absurd rfl hQ
    | cons q r => rw [ic_single]; exact ic_cons2 p q r
  | p :: p' :: P', Q, _, hQ => by
    have h1 : (p :: p' :: P') ++ Q = p :: ((p' :: P') ++ Q) := rfl
    have h2 : (p' :: P') ++ Q = p' :: (P' ++ Q) := rfl
    rw [h1, h2, ic_cons2, ← h2, ic_append (p' :: P') (by simp) hQ, ic_cons2]
    simp

/-- Markers contain no newline, and the pieces are joined by newlines, so an
occurrence of a marker in the joined document lies inside one piece. -/
theorem infx_intercalate {m : List Char} (hm0 : m ≠ []) (hnl : '\n' ∉ m) :
    ∀ P : List (List Char), infx m (List.intercalate ['\n'] P) → ∃ p ∈ P, infx m p
  | [], h => absurd (infx_nil h) hm0
  | [p], h => ⟨p, List.mem_singleton.mpr rfl, by rwa [ic_single] at h⟩
  | p :: q :: r, h => by
    rw [ic_cons2] at h
    rcases infx_split h with hx | hp | hrest
    · exact absurd hx hnl
    · exact ⟨p, List.mem_cons_self p _, hp⟩
    · obtain ⟨p', hp'1, hp'2⟩ := infx_intercalate hm0 hnl (q :: r) hrest
      exact ⟨p', List.mem_cons_of_mem p hp'1, hp'2⟩

/-- No occurrence of `m` begins strictly inside `X` when `m` does not occur
in `X` at all, `X` ends in a newline and `m` is newline-free: an occurrence
starting inside `X` would either lie in `X` or cross its final newline. -/
theorem not_pfx_inner {X m : List Char} (suffix : List Char)
    (hnl : '\n' ∉ m) (hinf : ¬ infx m X) {X' : List Char} (hlast : X = X' ++ ['\n']) :
    ∀ X1 ch X2, X = X1 ++ ch :: X2 → ¬ pfx m (ch :: (X2 ++ suffix)) := by
  intro X1 ch X2 hX hp
  have hp' : pfx m ((ch :: X2) ++ suffix) := by simpa using hp
  rcases pfx_cases hp' with hmx | hxm
  · -- m is a prefix of ch :: X2, hence occurs inside X
    obtain ⟨t, ht⟩ := hmx
    exact hinf ⟨X1, t, by rw [List.append_assoc, ht]; exact hX.symm⟩
  · -- ch :: X2 is a prefix of m, so m contains X's final newline
    have hmem : '\n' ∈ ch :: X2 := by
      rw [hlast] at hX
      rcases append_eq_append hX.symm with ⟨w, _, hw2⟩ | ⟨w, _, hw2⟩
      · rw [hw2]
        exact List.mem_append_right w (List.mem_singleton.mpr rfl)
      · cases w with
        | nil =>
          simp only [List.nil_append] at hw2
          injection hw2 with h1 _
          rw [← h1]
          exact List.mem_cons_self _ _
        | cons y w' =>
          injection hw2 with _ h2
          exact absurd h2.symm (by simp)
    exact hnl (pfx_mem hxm hmem)

/-- Main positive span lemma, stated on piece lists: the document is the
pieces `P1 ++ [s] ++ ["", c, ""] ++ [e] ++ P3` joined by newlines; if the
start marker `s` occurs in no piece of `P1` and the end marker `e` does not
occur in `c`, the captured group is `"\n\n" ++ c ++ "\n\n"`. -/
theorem matchSpan_pieces (P1 P3 : List (List Char)) (s e c : List Char)
    (hs0 : s ≠ []) (he0 : e ≠ []) (hsnl : '\n' ∉ s) (henl : '\n' ∉ e)
    (hP1 : ∀ p ∈ P1, ¬ infx s p) (hce : ¬ infx e c) (hP1ne : P1 ≠ []) :
    matchSpan s e
      (List.intercalate ['\n'] (P1 ++ [s] ++ ([[], c, []] ++ ([e] ++ P3)))) =
      some ('\n' :: '\n' :: (c ++ ['\n', '\n'])) := by
  have hmid : List.intercalate ['\n'] ([[], c, []] : List (List Char)) =
      '\n' :: (c ++ ['\n']) := by
    rw [ic_cons2, ic_cons2, ic_single]
    simp
  -- split the piece list around the start marker
  have hdoc : List.intercalate ['\n'] (P1 ++ [s] ++ ([[], c, []] ++ ([e] ++ P3)))
      = (List.intercalate ['\n'] P1 ++ ['\n']) ++
        (s ++ (('\n' :: '\n' :: (c ++ ['\n', '\n'])) ++
          (e ++ (match P3 with
                 | [] => ([] : List Char)
                 | _ :: _ => '\n' :: List.intercalate ['\n'] P3)))) := by
    rw [List.append_assoc P1 [s] _, ic_append P1 hP1ne (by simp),
      ic_append [s] (by simp) (by simp), ic_single,
      ic_append [[], c, []] (by simp) (by simp), hmid]
    cases P3 with
    | nil =>
      rw [List.append_nil, ic_single]
      simp
    | cons p3 P3' =>
      rw [ic_append [e] (by simp) (by simp), ic_single]
      simp
  rw [hdoc]
  set A := List.intercalate ['\n'] P1 ++ ['\n'] with hA
  set B := '\n' :: '\n' :: (c ++ ['\n', '\n']) with hB
  have hAinf : ¬ infx s A := by
    intro hi
    have hAic : A = List.intercalate ['\n'] (P1 ++ [[]]) := by
      rw [ic_append P1 hP1ne (by simp), ic_single, hA]
    rw [hAic] at hi
    obtain ⟨p, hp1, hp2⟩ := infx_intercalate hs0 hsnl _ hi
    rcases List.mem_append.mp hp1 with hpl | hpr
    · exact hP1 p hpl hp2
    · rw [List.mem_singleton.mp hpr] at hp2
      exact hs0 (infx_nil hp2)
  have hBinf : ¬ infx e B := by
    intro hi
    have hBic : B = List.intercalate ['\n'] ([[], [], c, [], []] : List (List Char)) := by
      rw [ic_cons2, ic_cons2, ic_cons2, ic_cons2, ic_single, hB]
      simp
    rw [hBic] at hi
    obtain ⟨p, hp1, hp2⟩ := infx_intercalate he0 henl _ hi
    simp only [List.mem_cons, List.mem_singleton] at hp1
    rcases hp1 with rfl | rfl | rfl | rfl | rfl | h
    · exact he0 (infx_nil hp2)
    · exact he0 (infx_nil hp2)
    · exact hce hp2
    · exact he0 (infx_nil hp2)
    · exact he0 (infx_nil hp2)
    · exact absurd h (List.not_mem_nil p)
  have hBlast : B = ('\n' :: '\n' :: (c ++ ['\n'])) ++ ['\n'] := by
    rw [hB]; simp
  exact matchSpan_exact A hs0
    (not_pfx_inner _ hsnl hAinf rfl)
    (not_pfx_inner _ henl hBinf hBlast)

/-- Negative span lemma on piece lists: if the start marker occurs in no
piece, the span match fails. -/
theorem matchSpan_pieces_none (P : List (List Char)) (s e : List Char)
    (hs0 : s ≠ []) (hsnl : '\n' ∉ s) (hP : ∀ p ∈ P, ¬ infx s p) :
    matchSpan s e (List.intercalate ['\n'] P) = none := by
  apply matchSpan_none
  intro hi
  obtain ⟨p, hp1, hp2⟩ := infx_intercalate hs0 hsnl P hi
  exact hP p hp1 hp2

end Cerebrus

namespace Cerebrus

/-! ### Registry marker facts -/

instance (m s : List Char) : Decidable (infx m s) :=
  decidable_of_iff _ (hasSub_iff s m)

instance (p s : List Char) : Decidable (pfx p s) :=
  decidable_of_iff _ (isPrefixOf_iff p s)

/-- Contents that mention no registered marker (the preserved-content domain
of the spec: markers "do not occur in legitimate rendered content"). -/
def contentOK (c : List Char) : Prop := ∀ m ∈ allMarkers, ¬ infx m c

instance (c : List Char) : Decidable (contentOK c) := by
  unfold contentOK
  infer_instance

theorem start_mem_allMarkers : ∀ k : SectionKey, (SECTIONS k).start ∈ allMarkers := by
  decide

theorem stop_mem_allMarkers : ∀ k : SectionKey, (SECTIONS k).stop ∈ allMarkers := by
  decide

theorem marker_ne_nil : ∀ m ∈ allMarkers, m ≠ [] := by decide

theorem marker_no_nl : ∀ m ∈ allMarkers, '\n' ∉ m := by decide

theorem marker_not_in_guard : ∀ m ∈ allMarkers, ¬ infx m CEREBRUS_IDENTIFIER := by
  decide

theorem marker_not_in_dashes : ∀ m ∈ allMarkers, ¬ infx m ("---".toList) := by
  decide

/-- Markers of distinct registry entries never contain one another. -/
theorem marker_cross : ∀ k k' : SectionKey, k ≠ k' →
    ¬ infx (SECTIONS k).start (SECTIONS k').start ∧
    ¬ infx (SECTIONS k).start (SECTIONS k').stop := by
  decide

theorem marker_not_in_nil (k : SectionKey) : ¬ infx (SECTIONS k).start [] :=
  fun h => marker_ne_nil _ (start_mem_allMarkers k) (infx_nil h)

theorem contentOK_no_start {c : List Char} (h : contentOK c) (k : SectionKey) :
    ¬ infx (SECTIONS k).start c :=
  h _ (start_mem_allMarkers k)

theorem contentOK_no_stop {c : List Char} (h : contentOK c) (k : SectionKey) :
    ¬ infx (SECTIONS k).stop c :=
  h _ (stop_mem_allMarkers k)

end Cerebrus

namespace Cerebrus

/-! ### Span computation over rendered part lists -/

theorem partsFor_cons_ne (b : SectionKey × List Char)
    {rest : List (SectionKey × List Char)} (h : rest ≠ []) :
    partsFor (b :: rest) = sectionParts b ++ ([[], "---".toList] ++ partsFor rest) := by
  cases rest with
  | nil => exact absurd rfl h
  | cons b' r => rfl

/-- Every piece pushed for a block list is a blank, a separator, or a marker
or content of one of its blocks. -/
theorem partsFor_mem : ∀ (l : List (SectionKey × List Char)) (p : List Char),
    p ∈ partsFor l →
    p = [] ∨ p = "---".toList ∨
      ∃ b ∈ l, p = (SECTIONS b.1).start ∨ p = b.2 ∨ p = (SECTIONS b.1).stop
  | [], p, hp => by simp [partsFor] at hp
  | [b], p, hp => by
    simp only [partsFor, sectionParts, List.mem_cons, List.mem_singleton] at hp
    rcases hp with rfl | rfl | rfl | rfl | rfl | rfl | h
    · exact Or.inl rfl
    · exact Or.inr (Or.inr ⟨b, List.mem_singleton.mpr rfl, Or.inl rfl⟩)
    · exact Or.inl rfl
    · exact Or.inr (Or.inr ⟨b, List.mem_singleton.mpr rfl, Or.inr (Or.inl rfl)⟩)
    · exact Or.inl rfl
    · exact Or.inr (Or.inr ⟨b, List.mem_singleton.mpr rfl, Or.inr (Or.inr rfl)⟩)
    · exact absurd h (List.not_mem_nil p)
  | b :: b' :: r, p, hp => by
    rw [partsFor_cons_ne b (by simp)] at hp
    rcases List.mem_append.mp hp with hp1 | hp2
    · simp only [sectionParts, List.mem_cons, List.mem_singleton] at hp1
      rcases hp1 with rfl | rfl | rfl | rfl | rfl | rfl | h
      · exact Or.inl rfl
      · exact Or.inr (Or.inr ⟨b, List.mem_cons_self b _, Or.inl rfl⟩)
      · exact Or.inl rfl
      · exact Or.inr (Or.inr ⟨b, List.mem_cons_self b _, Or.inr (Or.inl rfl)⟩)
      · exact Or.inl rfl
      · exact Or.inr (Or.inr ⟨b, List.mem_cons_self b _, Or.inr (Or.inr rfl)⟩)
      · exact absurd h (List.not_mem_nil p)
    · rcases List.mem_append.mp hp2 with hp3 | hp4
      · simp only [List.mem_cons, List.mem_singleton] at hp3
        rcases hp3 with rfl | rfl | h
        · exact Or.inl rfl
        · exact Or.inr (Or.inl rfl)
        · exact absurd h (List.not_mem_nil p)
      · rcases partsFor_mem (b' :: r) p hp4 with h1 | h2 | ⟨b0, hb0, hb0'⟩
        · exact Or.inl h1
        · exact Or.inr (Or.inl h2)
        · exact Or.inr (Or.inr ⟨b0, List.mem_cons_of_mem b hb0, hb0'⟩)

/-- Blocks whose keys differ from `k` and whose contents are clean: no piece
they push contains `k`'s start marker. -/
theorem partsFor_no_start {l : List (SectionKey × List Char)} {k : SectionKey}
    (hl : ∀ b ∈ l, b.1 ≠ k ∧ contentOK b.2) :
    ∀ p ∈ partsFor l, ¬ infx (SECTIONS k).start p := by
  intro p hp
  rcases partsFor_mem l p hp with rfl | rfl | ⟨b, hb, hcase⟩
  · exact marker_not_in_nil k
  · exact marker_not_in_dashes _ (start_mem_allMarkers k)
  · have hbk := (hl b hb).1
    have hbc := (hl b hb).2
    rcases hcase with rfl | rfl | rfl
    · exact (marker_cross k b.1 (fun h => hbk h.symm)).1
    · exact contentOK_no_start hbc k
    · exact (marker_cross k b.1 (fun h => hbk h.symm)).2

/-- Positive span over a full rendered part list: the first block with key
`k` (clean earlier blocks, clean content) is captured with its newline
padding. -/
theorem matchSpan_partsFor_present :
    ∀ (bl1 : List (SectionKey × List Char)) {k : SectionKey} {c : List Char}
      (bl2 : List (SectionKey × List Char)) {pre : List (List Char)},
      pre ≠ [] →
      (∀ p ∈ pre, ¬ infx (SECTIONS k).start p) →
      (∀ b ∈ bl1, b.1 ≠ k ∧ contentOK b.2) →
      contentOK c →
      matchSpan (SECTIONS k).start (SECTIONS k).stop
        (List.intercalate ['\n'] (pre ++ partsFor (bl1 ++ (k, c) :: bl2)))
        = some ('\n' :: '\n' :: (c ++ ['\n', '\n']))
  | [], k, c, bl2, pre, hpre, hpre2, _, hc => by
    have hs0 := marker_ne_nil _ (start_mem_allMarkers k)
    have he0 := marker_ne_nil _ (stop_mem_allMarkers k)
    have hsnl := marker_no_nl _ (start_mem_allMarkers k)
    have henl := marker_no_nl _ (stop_mem_allMarkers k)
    have hP1 : ∀ p ∈ pre ++ [[]], ¬ infx (SECTIONS k).start p := by
      intro p hp
      rcases List.mem_append.mp hp with h1 | h2
      · exact hpre2 p h1
      · rw [List.mem_singleton.mp h2]
        exact marker_not_in_nil k
    cases bl2 with
    | nil =>
      have heq : pre ++ partsFor ([] ++ (k, c) :: []) =
          (pre ++ [[]]) ++ [(SECTIONS k).start] ++
            ([[], c, []] ++ ([(SECTIONS k).stop] ++ [])) := by
        simp [partsFor, sectionParts]
      rw [heq]
      exact matchSpan_pieces _ _ _ _ _ hs0 he0 hsnl henl hP1
        (contentOK_no_stop hc k) (by simp)
    | cons b' r =>
      have heq : pre ++ partsFor ([] ++ (k, c) :: b' :: r) =
          (pre ++ [[]]) ++ [(SECTIONS k).start] ++
            ([[], c, []] ++ ([(SECTIONS k).stop] ++
              ([[], "---".toList] ++ partsFor (b' :: r)))) := by
        rw [List.nil_append, partsFor_cons_ne _ (by simp)]
        simp [sectionParts]
      rw [heq]
      exact matchSpan_pieces _ _ _ _ _ hs0 he0 hsnl henl hP1
        (contentOK_no_stop hc k) (by simp)
  | b0 :: bl1', k, c, bl2, pre, hpre, hpre2, hbl1, hc => by
    have hne : bl1' ++ (k, c) :: bl2 ≠ [] := by simp
    have heq : pre ++ partsFor ((b0 :: bl1') ++ (k, c) :: bl2) =
        (pre ++ (sectionParts b0 ++ [[], "---".toList])) ++
          partsFor (bl1' ++ (k, c) :: bl2) := by
      rw [List.cons_append, partsFor_cons_ne _ hne]
      simp
    rw [heq]
    apply matchSpan_partsFor_present bl1' bl2
    · simp
    · intro p hp
      rcases List.mem_append.mp hp with h1 | h2
      · exact hpre2 p h1
      · rcases List.mem_append.mp h2 with h3 | h4
        · have hb0 := hbl1 b0 (List.mem_cons_self b0 _)
          simp only [sectionParts, List.mem_cons, List.mem_singleton] at h3
          rcases h3 with rfl | rfl | rfl | rfl | rfl | rfl | h
          · exact marker_not_in_nil k
          · exact (marker_cross k b0.1 (fun h => hb0.1 h.symm)).1
          · exact marker_not_in_nil k
          · exact contentOK_no_start hb0.2 k
          · exact marker_not_in_nil k
          · exact (marker_cross k b0.1 (fun h => hb0.1 h.symm)).2
          · exact absurd h (List.not_mem_nil p)
        · simp only [List.mem_cons, List.mem_singleton] at h4
          rcases h4 with rfl | rfl | h
          · exact marker_not_in_nil k
          · exact marker_not_in_dashes _ (start_mem_allMarkers k)
          · exact absurd h (List.not_mem_nil p)
    · intro b hb
      exact hbl1 b (List.mem_cons_of_mem b0 hb)
    · exact hc

/-- Negative span over a full rendered part list: no block has key `k`, all
contents are clean, so `k`'s section is absent. -/
theorem matchSpan_partsFor_none (blocks : List (SectionKey × List Char))
    (k : SectionKey) (pre : List (List Char))
    (hpre : ∀ p ∈ pre, ¬ infx (SECTIONS k).start p)
    (hbl : ∀ b ∈ blocks, b.1 ≠ k ∧ contentOK b.2) :
    matchSpan (SECTIONS k).start (SECTIONS k).stop
      (List.intercalate ['\n'] (pre ++ partsFor blocks)) = none := by
  apply matchSpan_pieces_none
  · exact marker_ne_nil _ (start_mem_allMarkers k)
  · exact marker_no_nl _ (start_mem_allMarkers k)
  · intro p hp
    rcases List.mem_append.mp hp with h1 | h2
    · exact hpre p h1
    · exact partsFor_no_start hbl p h2

end Cerebrus

namespace Cerebrus

/-! ### Trim lemmas -/

theorem trim_nil : trimList [] = [] := rfl

theorem trim_cons_ws {ch : Char} (h : isWs ch = true) (x : List Char) :
    trimList (ch :: x) = trimList x := by
  simp [trimList, List.dropWhile_cons, h]

theorem trim_append_ws {ch : Char} (h : isWs ch = true) (x : List Char) :
    trimList (x ++ [ch]) = trimList x := by
  unfold trimList
  cases hx : x.dropWhile isWs with
  | nil =>
    have hz : (x ++ [ch]).dropWhile isWs = [] := by
      rw [List.dropWhile_append, hx]
      simp [List.dropWhile_cons, h]
    rw [hz]
  | cons d ds =>
    have hz : (x ++ [ch]).dropWhile isWs = (d :: ds) ++ [ch] := by
      rw [List.dropWhile_append, hx]
      simp
    rw [hz, List.reverse_append]
    simp [List.dropWhile_cons, h]

theorem trim_pad (c : List Char) :
    trimList ('\n' :: '\n' :: (c ++ ['\n', '\n'])) = trimList c := by
  rw [trim_cons_ws (by decide), trim_cons_ws (by decide)]
  have h2 : c ++ ['\n', '\n'] = (c ++ ['\n']) ++ ['\n'] := by simp
  rw [h2, trim_append_ws (by decide), trim_append_ws (by decide)]

theorem dropWhile_head_false (p : Char → Bool) :
    ∀ (l : List Char) {a : Char} {r : List Char}, l.dropWhile p = a :: r → p a = false
  | [], a, r, h => by simp at h
  | x :: t, a, r, h => by
    cases hx : p x with
    | true =>
      rw [List.dropWhile_cons_of_pos hx] at h
      exact dropWhile_head_false p t h
    | false =>
      rw [List.dropWhile_cons_of_neg (by simp [hx])] at h
      injection h with h1 _
      rw [← h1]
      exact hx

theorem dropWhile_eq_self {p : Char → Bool} :
    ∀ {l : List Char}, (∀ a r, l = a :: r → p a = false) → l.dropWhile p = l
  | [], _ => rfl
  | x :: t, h => List.dropWhile_cons_of_neg (by simp [h x t rfl])

theorem dropWhile_sfx (p : Char → Bool) : ∀ l : List Char, ∃ w, w ++ l.dropWhile p = l
  | [] => ⟨[], rfl⟩
  | x :: t => by
    cases hx : p x with
    | true =>
      obtain ⟨w, hw⟩ := dropWhile_sfx p t
      exact ⟨x :: w, by rw [List.dropWhile_cons_of_pos hx, List.cons_append, hw]⟩
    | false =>
      exact ⟨[], by rw [List.dropWhile_cons_of_neg (by simp [hx])]; rfl⟩

theorem trim_idem (c : List Char) : trimList (trimList c) = trimList c := by
  cases hv : (c.dropWhile isWs).reverse.dropWhile isWs with
  | nil =>
    have h0 : trimList c = [] := by unfold trimList; rw [hv]; rfl
    rw [h0]; rfl
  | cons a r =>
    have htc : trimList c = (a :: r).reverse := by unfold trimList; rw [hv]
    have hva : isWs a = false := dropWhile_head_false isWs _ hv
    obtain ⟨w, hw⟩ := dropWhile_sfx isWs (c.dropWhile isWs).reverse
    rw [hv] at hw
    have hulen : c.dropWhile isWs ≠ [] := by
      intro hnil
      rw [hnil] at hw
      simp at hw
    obtain ⟨u0, urest, hu0⟩ : ∃ u0 urest, c.dropWhile isWs = u0 :: urest := by
      cases hxx : c.dropWhile isWs with
      | nil => exact absurd hxx hulen
      | cons u0 urest => exact ⟨u0, urest, rfl⟩
    have hu0f : isWs u0 = false := dropWhile_head_false isWs c hu0
    obtain ⟨v', hv'⟩ : ∃ v', (a :: r).reverse = u0 :: v' := by
      have hrev : c.dropWhile isWs = (a :: r).reverse ++ w.reverse := by
        rw [← List.reverse_append, hw, List.reverse_reverse]
      rw [hu0] at hrev
      cases hy : (a :: r).reverse with
      | nil => simp at hy
      | cons y ys =>
        rw [hy, List.cons_append] at hrev
        injection hrev with h1 _
        exact ⟨ys, by rw [h1]⟩
    rw [htc]
    unfold trimList
    rw [hv', List.dropWhile_cons_of_neg (by simp [hu0f]), ← hv', List.reverse_reverse,
      List.dropWhile_cons_of_neg (by simp [hva])]

/-! ### The master round-trip: `parse (build s) = mapTrim s` -/

/-- Trim every present content of a section set. -/
def mapTrim (s : Sections) : Sections :=
  ⟨s.buildSize.map trimList, s.pathValidation.map trimList, s.changeNote.map trimList⟩

def optOK : Option (List Char) → Prop
  | none => True
  | some c => contentOK c

instance : (o : Option (List Char)) → Decidable (optOK o)
  | none => isTrue trivial
  | some c => inferInstanceAs (Decidable (contentOK c))

/-- Every present content of the section set mentions no registered marker. -/
def SectionsOK (s : Sections) : Prop :=
  optOK s.buildSize ∧ optOK s.pathValidation ∧ optOK s.changeNote

instance (s : Sections) : Decidable (SectionsOK s) :=
  inferInstanceAs (Decidable (_ ∧ _ ∧ _))

theorem guard_pre (k : SectionKey) :
    ∀ p ∈ [CEREBRUS_IDENTIFIER], ¬ infx (SECTIONS k).start p := by
  intro p hp
  rw [List.mem_singleton.mp hp]
  exact marker_not_in_guard _ (start_mem_allMarkers k)

theorem optBlock_cond {k' k : SectionKey} {o : Option (List Char)}
    (hne : k' ≠ k) (hok : optOK o) :
    ∀ b ∈ optBlock k' o, b.1 ≠ k ∧ contentOK b.2 := by
  cases o with
  | none => intro b hb; simp [optBlock] at hb
  | some c =>
    intro b hb
    simp only [optBlock, List.mem_singleton] at hb
    rw [hb]
    exact ⟨hne, hok⟩

theorem buildComment_parts (s : Sections) :
    buildComment s =
      List.intercalate ['\n'] ([CEREBRUS_IDENTIFIER] ++ partsFor (activeList s)) := rfl

end Cerebrus

namespace Cerebrus

theorem parseOne_buildComment (s : Sections) (hOK : SectionsOK s) :
    ∀ k : SectionKey,
      parseOne (SECTIONS k) (buildComment s) = (getSection s k).map trimList := by
  obtain ⟨hbs, hpv, hcn⟩ := hOK
  intro k
  have hP : ∀ k' : SectionKey, parseOne (SECTIONS k') (buildComment s) =
      (matchSpan (SECTIONS k').start (SECTIONS k').stop
        (List.intercalate ['\n']
          ([CEREBRUS_IDENTIFIER] ++ partsFor (activeList s)))).map trimList :=
    fun _ => rfl
  cases k with
  | BUILD_SIZE =>
    cases hc : s.buildSize with
    | some c =>
      have hcOK : contentOK c := by rw [hc] at hbs; exact hbs
      have heq : activeList s = [] ++ ((SectionKey.BUILD_SIZE, c) ::
          (optBlock .PATH_VALIDATION s.pathValidation ++
            optBlock .CHANGE_NOTE s.changeNote)) := by
        unfold activeList
        rw [hc]
        rfl
      rw [hP, heq,
        matchSpan_partsFor_present [] _ (by simp) (guard_pre _) (by simp) hcOK]
      show some (trimList _) = _
      rw [trim_pad, getSection, hc]
      rfl
    | none =>
      have heq : activeList s =
          optBlock .PATH_VALIDATION s.pathValidation ++
            optBlock .CHANGE_NOTE s.changeNote := by
        unfold activeList
        rw [hc]
        rfl
      rw [hP, heq, matchSpan_partsFor_none _ _ _ (guard_pre _) ?_]
      · rw [getSection, hc]
      · intro b hb
        rcases List.mem_append.mp hb with h1 | h2
        · exact optBlock_cond (by decide) hpv b h1
        · exact optBlock_cond (by decide) hcn b h2
  | PATH_VALIDATION =>
    cases hc : s.pathValidation with
    | some c =>
      have hcOK : contentOK c := by rw [hc] at hpv; exact hpv
      have heq : activeList s = optBlock .BUILD_SIZE s.buildSize ++
          ((SectionKey.PATH_VALIDATION, c) ::
            optBlock .CHANGE_NOTE s.changeNote) := by
        unfold activeList
        rw [hc]
        rfl
      rw [hP, heq,
        matchSpan_partsFor_present _ _ (by simp) (guard_pre _)
          (optBlock_cond (by decide) hbs) hcOK]
      show some (trimList _) = _
      rw [trim_pad, getSection, hc]
      rfl
    | none =>
      have heq : activeList s = optBlock .BUILD_SIZE s.buildSize ++
          optBlock .CHANGE_NOTE s.changeNote := by
        unfold activeList
        rw [hc]
        rfl
      rw [hP, heq, matchSpan_partsFor_none _ _ _ (guard_pre _) ?_]
      · rw [getSection, hc]
      · intro b hb
        rcases List.mem_append.mp hb with h1 | h2
        · exact optBlock_cond (by decide) hbs b h1
        · exact optBlock_cond (by decide) hcn b h2
  | CHANGE_NOTE =>
    cases hc : s.changeNote with
    | some c =>
      have hcOK : contentOK c := by rw [hc] at hcn; exact hcn
      have heq : activeList s = (optBlock .BUILD_SIZE s.buildSize ++
          optBlock .PATH_VALIDATION s.pathValidation) ++
          ((SectionKey.CHANGE_NOTE, c) :: []) := by
        unfold activeList
        rw [hc, ← List.append_assoc]
        rfl
      rw [hP, heq,
        matchSpan_partsFor_present _ _ (by simp) (guard_pre _) ?_ hcOK]
      · show some (trimList _) = _
        rw [trim_pad, getSection, hc]
        rfl
      · intro b hb
        rcases List.mem_append.mp hb with h1 | h2
        · exact optBlock_cond (by decide) hbs b h1
        · exact optBlock_cond (by decide) hpv b h2
    | none =>
      have heq : activeList s = optBlock .BUILD_SIZE s.buildSize ++
          optBlock .PATH_VALIDATION s.pathValidation := by
        unfold activeList
        rw [hc]
        simp [optBlock]
      rw [hP, heq, matchSpan_partsFor_none _ _ _ (guard_pre _) ?_]
      · rw [getSection, hc]
      · intro b hb
        rcases List.mem_append.mp hb with h1 | h2
        · exact optBlock_cond (by decide) hbs b h1
        · exact optBlock_cond (by decide) hpv b h2

/-- The master round-trip: parsing a document built from marker-free contents
recovers each content up to trimming. -/
theorem parse_build (s : Sections) (h : SectionsOK s) :
    parseCommentSections (buildComment s) = mapTrim s := by
  have h1 := parseOne_buildComment s h .BUILD_SIZE
  have h2 := parseOne_buildComment s h .PATH_VALIDATION
  have h3 := parseOne_buildComment s h .CHANGE_NOTE
  unfold parseCommentSections mapTrim
  rw [Sections.mk.injEq]
  exact ⟨h1, h2, h3⟩

end Cerebrus

namespace Cerebrus

/-! ### `buildComment` produces the bit-exact §6 format -/

theorem ic_partsFor : ∀ (l : List (SectionKey × List Char)) (x : List Char),
    List.intercalate ['\n'] (x :: partsFor l) = x ++ renderBlocks l
  | [], x => by
    rw [partsFor, renderBlocks, ic_single, List.append_nil]
  | [b], x => by
    show List.intercalate ['\n']
      (x :: [[], (SECTIONS b.1).start, [], b.2, [], (SECTIONS b.1).stop]) = _
    rw [ic_cons2, ic_cons2, ic_cons2, ic_cons2, ic_cons2, ic_cons2, ic_single,
      renderBlocks, blockStr]
    simp
  | b :: b' :: r, x => by
    have h1 : x :: partsFor (b :: b' :: r) =
        (x :: [[], (SECTIONS b.1).start, [], b.2, [], (SECTIONS b.1).stop, []]) ++
          ("---".toList :: partsFor (b' :: r)) := by
      show x :: (sectionParts b ++ ([[], "---".toList] ++ partsFor (b' :: r))) = _
      simp [sectionParts]
    rw [h1, ic_append _ (by simp) (by simp),
      ic_cons2, ic_cons2, ic_cons2, ic_cons2, ic_cons2, ic_cons2, ic_cons2, ic_single,
      ic_partsFor (b' :: r) ("---".toList)]
    show _ = x ++ (blockStr b ++ ('\n' :: '\n' :: '-' :: '-' :: '-' :: renderBlocks (b' :: r)))
    rw [blockStr]
    have hd : "---".toList = ['-', '-', '-'] := rfl
    rw [hd]
    simp

/-- `parts.join('\n')` equals the explicit §6 byte format. -/
theorem buildComment_renderDoc (s : Sections) :
    buildComment s = renderDoc (activeList s) := by
  rw [buildComment, ic_partsFor (activeList s) CEREBRUS_IDENTIFIER, renderDoc]

/-! ### Span existence and decomposition -/

theorem takeUntil_some_decomp : ∀ (u : List Char) {e t : List Char},
    takeUntil e u = some t → ∃ z, u = t ++ (e ++ z)
  | [], e, t, h => by
    cases hp : e.isPrefixOf ([] : List Char) with
    | true =>
      simp only [takeUntil, if_pos hp] at h
      injection h with h1
      obtain ⟨w, hw⟩ := (isPrefixOf_iff _ _).mp hp
      have he : e = [] := by
        cases e with
        | nil => rfl
        | cons a b => simp at hw
      exact ⟨[], by rw [← h1, he]; rfl⟩
    | false =>
      have hnone : takeUntil e ([] : List Char) = none := by
        cases e with
        | nil => simp [List.isPrefixOf] at hp
        | cons a b => rfl
      rw [hnone] at h
      exact absurd h (by simp)
  | c :: rest, e, t, h => by
    by_cases hp : pfx e (c :: rest)
    · rw [takeUntil_pos hp] at h
      injection h with h1
      obtain ⟨w, hw⟩ := hp
      exact ⟨w, by rw [← h1, ← hw]; rfl⟩
    · rw [takeUntil_neg hp] at h
      cases ht : takeUntil e rest with
      | none => rw [ht] at h; exact absurd h (by simp)
      | some t' =>
        rw [ht] at h
        injection h with h1
        obtain ⟨z, hz⟩ := takeUntil_some_decomp rest ht
        exact ⟨z, by rw [← h1, hz]; rfl⟩

theorem takeUntil_some_of_decomp : ∀ (y : List Char) {e z : List Char},
    ∃ t, takeUntil e (y ++ (e ++ z)) = some t
  | [], e, z => by
    cases e with
    | nil =>
      cases z with
      | nil => exact ⟨[], rfl⟩
      | cons c r => exact ⟨[], takeUntil_pos (pfx_nil _)⟩
    | cons ec e' =>
      exact ⟨[], takeUntil_pos ⟨z, by simp⟩⟩
  | c :: y', e, z => by
    by_cases hp : pfx e (c :: (y' ++ (e ++ z)))
    · exact ⟨[], takeUntil_pos hp⟩
    · obtain ⟨t, ht⟩ := takeUntil_some_of_decomp y' (e := e) (z := z)
      refine ⟨c :: t, ?_⟩
      have : (c :: y') ++ (e ++ z) = c :: (y' ++ (e ++ z)) := rfl
      rw [this, takeUntil_neg hp, ht]
      rfl

theorem matchSpan_ne_none_of_decomp : ∀ (x : List Char) {s e y z : List Char},
    s ≠ [] → matchSpan s e (x ++ (s ++ (y ++ (e ++ z)))) ≠ none
  | [], s, e, y, z, hs => by
    cases hsc : s with
    | nil => exact absurd hsc hs
    | cons sc s' =>
      subst hsc
      have hstep : ([] : List Char) ++ ((sc :: s') ++ (y ++ (e ++ z)))
          = sc :: (s' ++ (y ++ (e ++ z))) := by simp
      rw [hstep]
      obtain ⟨t, ht⟩ := takeUntil_some_of_decomp y (e := e) (z := z)
      have hdrop : (sc :: (s' ++ (y ++ (e ++ z)))).drop (sc :: s').length
          = y ++ (e ++ z) := by
        simp only [List.length_cons, List.drop_succ_cons]
        exact drop_len_append s' (y ++ (e ++ z))
      rw [matchSpan_cons_pos ⟨y ++ (e ++ z), by simp⟩ (by rw [hdrop]; exact ht)]
      simp
  | c :: x', s, e, y, z, hs => by
    have hstep : (c :: x') ++ (s ++ (y ++ (e ++ z)))
        = c :: (x' ++ (s ++ (y ++ (e ++ z)))) := rfl
    rw [hstep]
    by_cases hp : pfx s (c :: (x' ++ (s ++ (y ++ (e ++ z)))))
    · cases ht : takeUntil e ((c :: (x' ++ (s ++ (y ++ (e ++ z))))).drop s.length) with
      | some t =>
        rw [matchSpan_cons_pos hp ht]
        simp
      | none =>
        rw [matchSpan_cons_pos_fail hp ht]
        exact matchSpan_ne_none_of_decomp x' hs
    · rw [matchSpan_cons_neg hp]
      exact matchSpan_ne_none_of_decomp x' hs

theorem decomp_of_matchSpan_some : ∀ (b : List Char) {s e t : List Char},
    s ≠ [] → matchSpan s e b = some t → ∃ x z, b = x ++ (s ++ (t ++ (e ++ z)))
  | [], s, e, t, hs, h => by
    cases hsc : s with
    | nil => exact absurd hsc hs
    | cons sc s' =>
      subst hsc
      rw [matchSpan] at h
      rw [if_neg (by simp [List.isPrefixOf])] at h
      exact absurd h (by simp)
  | c :: rest, s, e, t, hs, h => by
    by_cases hp : pfx s (c :: rest)
    · cases ht : takeUntil e ((c :: rest).drop s.length) with
      | some t' =>
        rw [matchSpan_cons_pos hp ht] at h
        injection h with h1
        subst h1
        obtain ⟨u, hu⟩ := hp
        obtain ⟨z, hz⟩ := takeUntil_some_decomp _ ht
        refine ⟨[], z, ?_⟩
        rw [List.nil_append, ← hz]
        have : (c :: rest).drop s.length = u := by
          rw [← hu]
          exact drop_len_append s u
        rw [this, hu]
      | none =>
        rw [matchSpan_cons_pos_fail hp ht] at h
        obtain ⟨x, z, hx⟩ := decomp_of_matchSpan_some rest hs h
        exact ⟨c :: x, z, by rw [List.cons_append, hx]⟩
    · rw [matchSpan_cons_neg hp] at h
      obtain ⟨x, z, hx⟩ := decomp_of_matchSpan_some rest hs h
      exact ⟨c :: x, z, by rw [List.cons_append, hx]⟩

/-! ### Parse outputs are trim-stable -/

theorem map_trim_trim (o : Option (List Char)) :
    Option.map trimList (Option.map trimList o) = Option.map trimList o := by
  cases o with
  | none => rfl
  | some v => simp [trim_idem]

theorem mapTrim_parse (b : List Char) :
    mapTrim (parseCommentSections b) = parseCommentSections b := by
  unfold mapTrim parseCommentSections parseOne
  rw [Sections.mk.injEq]
  refine ⟨map_trim_trim _, map_trim_trim _, map_trim_trim _⟩

theorem parse_nil : parseCommentSections [] = emptySections := by decide

end Cerebrus

namespace Cerebrus

/-! ### Validity predicates for claims -/

def optValid : Option (List Char) → Prop
  | none => True
  | some c => trimList c = c ∧ contentOK c

instance : (o : Option (List Char)) → Decidable (optValid o)
  | none => isTrue trivial
  | some _ => inferInstanceAs (Decidable (_ ∧ _))

/-- A valid section set per the spec: each present content is trimmed and
contains no registered start or end marker. -/
def ValidSections (s : Sections) : Prop :=
  optValid s.buildSize ∧ optValid s.pathValidation ∧ optValid s.changeNote

instance (s : Sections) : Decidable (ValidSections s) :=
  inferInstanceAs (Decidable (_ ∧ _ ∧ _))

theorem sectionsOK_of_valid {s : Sections} (h : ValidSections s) : SectionsOK s := by
  obtain ⟨h1, h2, h3⟩ := h
  refine ⟨?_, ?_, ?_⟩
  · cases hx : s.buildSize with
    | none => trivial
    | some _ => rw [hx] at h1; exact h1.2
  · cases hx : s.pathValidation with
    | none => trivial
    | some _ => rw [hx] at h2; exact h2.2
  · cases hx : s.changeNote with
    | none => trivial
    | some _ => rw [hx] at h3; exact h3.2

theorem mapTrim_of_valid {s : Sections} (h : ValidSections s) : mapTrim s = s := by
  obtain ⟨h1, h2, h3⟩ := h
  obtain ⟨o1, o2, o3⟩ := s
  unfold mapTrim
  rw [Sections.mk.injEq]
  refine ⟨?_, ?_, ?_⟩
  · cases o1 with
    | none => rfl
    | some c => simpa using h1.1
  · cases o2 with
    | none => rfl
    | some c => simpa using h2.1
  · cases o3 with
    | none => rfl
    | some c => simpa using h3.1

/-! ### Claim theorems -/

/-- C1: for every valid section set (each content trimmed and free of
registered markers), parsing the serialized document recovers exactly that
section set: `parseCommentSections (buildComment s) = s`. -/
theorem roundtrip_parse_buildComment (s : Sections) (h : ValidSections s) :
    parseCommentSections (buildComment s) = s := by
  rw [parse_build s (sectionsOK_of_valid h), mapTrim_of_valid h]

theorem roundtrip_parse_buildComment_witness :
    ValidSections ⟨some "Size: +1KB".toList, none, some "All good".toList⟩ ∧
    parseCommentSections (buildComment
        ⟨some "Size: +1KB".toList, none, some "All good".toList⟩) =
      ⟨some "Size: +1KB".toList, none, some "All good".toList⟩ :=
  ⟨by decide, roundtrip_parse_buildComment _ (by decide)⟩

/-- C2: every body produced by `updateCommentSection` or
`createCommentWithSection` is bit-exact `renderDoc` format: the guard marker,
then per section a blank line, the start marker, a blank line, the content, a
blank line, the end marker, consecutive sections joined by a blank line and a
lone `---` line, no trailing separator. -/
theorem update_create_format (body : List Char) (key : String) (k : SectionKey)
    (c : List Char) (hk : lookupSection key = some k) :
    updateCommentSection body key c =
      .ok (renderDoc (activeList (setSection (parseCommentSections body) k c))) ∧
    createCommentWithSection key c =
      .ok (renderDoc (activeList (setSection emptySections k c))) := by
  constructor
  · simp only [updateCommentSection, hk]
    rw [buildComment_renderDoc]
  · simp only [createCommentWithSection, hk]
    rw [buildComment_renderDoc]

theorem update_create_format_witness :
    updateCommentSection [] "BUILD_SIZE" "hi".toList =
      .ok (renderDoc (activeList (setSection (parseCommentSections [])
        SectionKey.BUILD_SIZE "hi".toList))) ∧
    createCommentWithSection "BUILD_SIZE" "hi".toList =
      .ok (renderDoc (activeList (setSection emptySections
        SectionKey.BUILD_SIZE "hi".toList))) :=
  update_create_format [] "BUILD_SIZE" SectionKey.BUILD_SIZE "hi".toList rfl

/-- The own, enumerable member names of `Object.prototype`, plus the
`__proto__` accessor: on a plain object literal such as `SECTIONS`, a bracket
lookup with any of these names finds an inherited value (a function, or for
`__proto__` the prototype object itself), all of which are truthy in JS. -/
def objectPrototypeMemberNames : List String :=
  ["constructor", "hasOwnProperty", "isPrototypeOf", "propertyIsEnumerable",
   "toLocaleString", "toString", "valueOf", "__proto__", "__defineGetter__",
   "__defineSetter__", "__lookupGetter__", "__lookupSetter__"]

/-- Truthiness of the source's bracket lookup `SECTIONS[sectionKey]`: a plain
object literal has the three registered keys as own properties and inherits
the `Object.prototype` members, every one of which is truthy, so the guard
`if (!SECTIONS[sectionKey]) throw ...` fires exactly when this is `false`. -/
def sectionsBracketTruthy (sectionKey : String) : Bool :=
  (lookupSection sectionKey).isSome || objectPrototypeMemberNames.contains sectionKey

/-- C5: the claim — each operation throws an error naming the bad key if and
only if the identifier is not in the registry — matches the spec's stated
error design but not the code: for the unregistered key `"constructor"` the
guard `!SECTIONS[sectionKey]` sees the inherited, truthy
`Object.prototype.constructor`, so no error is thrown and the operation
proceeds, while a plain unknown key such as `"NOT_REAL"` does throw.  The
guard misses every inherited member name. -/
theorem guard_misses_prototype_keys :
    sectionsBracketTruthy "constructor" = true ∧
    lookupSection "constructor" = none ∧
    sectionsBracketTruthy "NOT_REAL" = false ∧
    (∀ key ∈ objectPrototypeMemberNames,
      sectionsBracketTruthy key = true ∧ lookupSection key = none) := by
  decide

/-- C8: `createCommentWithSection key c` equals `updateCommentSection "" key c`
and is a document holding exactly the guard marker and that single section. -/
theorem create_eq_update_empty (key : String) (k : SectionKey) (c : List Char)
    (hk : lookupSection key = some k) :
    createCommentWithSection key c = updateCommentSection [] key c ∧
    createCommentWithSection key c = .ok (CEREBRUS_IDENTIFIER ++
      ('\n' :: '\n' :: ((SECTIONS k).start ++ '\n' :: '\n' ::
        (c ++ '\n' :: '\n' :: (SECTIONS k).stop)))) := by
  constructor
  · simp only [createCommentWithSection, updateCommentSection, hk, parse_nil]
  · simp only [createCommentWithSection, hk]
    rw [buildComment_renderDoc]
    have hl : activeList (setSection emptySections k c) = [(k, c)] := by
      cases k <;> rfl
    rw [hl]
    rfl

theorem create_eq_update_empty_witness :
    createCommentWithSection "CHANGE_NOTE" "All good".toList =
      updateCommentSection [] "CHANGE_NOTE" "All good".toList ∧
    createCommentWithSection "CHANGE_NOTE" "All good".toList =
      .ok (CEREBRUS_IDENTIFIER ++
        ('\n' :: '\n' :: ((SECTIONS SectionKey.CHANGE_NOTE).start ++ '\n' :: '\n' ::
          ("All good".toList ++ '\n' :: '\n' :: (SECTIONS SectionKey.CHANGE_NOTE).stop)))) :=
  create_eq_update_empty "CHANGE_NOTE" SectionKey.CHANGE_NOTE "All good".toList rfl

/-- C9: a section parses as absent exactly when its start marker is never
followed by its end marker in the body; a start marker with no matching end
marker after it (or a wholly missing section) is treated as absent, and
parsing never fails. -/
theorem corrupted_section_absent (body : List Char) (k : SectionKey) :
    getSection (parseCommentSections body) k = none ↔
      ¬ ∃ x y z, body =
        x ++ ((SECTIONS k).start ++ (y ++ ((SECTIONS k).stop ++ z))) := by
  have hs0 : (SECTIONS k).start ≠ [] := marker_ne_nil _ (start_mem_allMarkers k)
  have hfield : getSection (parseCommentSections body) k =
      (matchSpan (SECTIONS k).start (SECTIONS k).stop body).map trimList := by
    cases k <;> rfl
  rw [hfield]
  constructor
  · rintro h ⟨x, y, z, hxyz⟩
    have hne := matchSpan_ne_none_of_decomp x (s := (SECTIONS k).start)
      (e := (SECTIONS k).stop) (y := y) (z := z) hs0
    rw [← hxyz] at hne
    cases hm : matchSpan (SECTIONS k).start (SECTIONS k).stop body with
    | none => exact hne hm
    | some t => rw [hm] at h; exact absurd h (by simp)
  · intro h
    cases hm : matchSpan (SECTIONS k).start (SECTIONS k).stop body with
    | none => rfl
    | some t =>
      obtain ⟨x, z, hx⟩ := decomp_of_matchSpan_some body hs0 hm
      exact absurd ⟨x, t, z, hx⟩ h

/-- C10: updates and removals depend only on the parsed sections of the body:
bodies with equal parses get identical results, so unrecognized text is
discarded. -/
theorem output_depends_only_on_parse (b1 b2 : List Char)
    (h : parseCommentSections b1 = parseCommentSections b2)
    (key : String) (c : List Char) :
    updateCommentSection b1 key c = updateCommentSection b2 key c ∧
    removeCommentSection b1 key = removeCommentSection b2 key := by
  unfold updateCommentSection removeCommentSection
  rw [h]
  exact ⟨rfl, rfl⟩

theorem output_depends_only_on_parse_witness :
    parseCommentSections "stray prose".toList = parseCommentSections [] ∧
    updateCommentSection "stray prose".toList "BUILD_SIZE" "x".toList =
      updateCommentSection [] "BUILD_SIZE" "x".toList := by
  have h : parseCommentSections "stray prose".toList = parseCommentSections [] := by
    decide
  exact ⟨h,
    (output_depends_only_on_parse "stray prose".toList [] h "BUILD_SIZE" "x".toList).1⟩

end Cerebrus

namespace Cerebrus

/-! ### Section-set update lemmas -/

theorem getSection_set_same (s : Sections) (k : SectionKey) (c : List Char) :
    getSection (setSection s k c) k = some c := by
  cases k <;> rfl

theorem getSection_set_other (s : Sections) {k k' : SectionKey} (c : List Char)
    (h : k' ≠ k) : getSection (setSection s k c) k' = getSection s k' := by
  cases k <;> cases k' <;> first | rfl | exact absurd rfl h

theorem set_set (s : Sections) (k : SectionKey) (c c' : List Char) :
    setSection (setSection s k c') k c = setSection s k c := by
  obtain ⟨o1, o2, o3⟩ := s
  cases k <;> rfl

theorem mapTrim_set (s : Sections) (k : SectionKey) (c : List Char) :
    mapTrim (setSection s k c) = setSection (mapTrim s) k (trimList c) := by
  obtain ⟨o1, o2, o3⟩ := s
  cases k <;> rfl

theorem sectionsOK_set {s : Sections} (h : SectionsOK s) (k : SectionKey)
    {c : List Char} (hc : contentOK c) : SectionsOK (setSection s k c) := by
  obtain ⟨h1, h2, h3⟩ := h
  cases k
  · exact ⟨hc, h2, h3⟩
  · exact ⟨h1, hc, h3⟩
  · exact ⟨h1, h2, hc⟩

theorem erase_absent {s : Sections} {k : SectionKey}
    (h : getSection s k = none) : eraseSection s k = s := by
  obtain ⟨o1, o2, o3⟩ := s
  cases k
  · rw [show getSection ⟨o1, o2, o3⟩ SectionKey.BUILD_SIZE = o1 from rfl] at h
    rw [h]
    rfl
  · rw [show getSection ⟨o1, o2, o3⟩ SectionKey.PATH_VALIDATION = o2 from rfl] at h
    rw [h]
    rfl
  · rw [show getSection ⟨o1, o2, o3⟩ SectionKey.CHANGE_NOTE = o3 from rfl] at h
    rw [h]
    rfl

/-! ### C3 (corrected): upsert idempotence -/

/-- A content that smuggles a complete PATH_VALIDATION section. -/
def pvInjection : List Char :=
  "<!-- Path Validation Section -->\nhi\n<!-- End Path Validation Section -->".toList

/-- The first upsert of the C3 counterexample. -/
def firstUpsert : List Char :=
  match updateCommentSection [] "BUILD_SIZE" pvInjection with
  | .ok r => r
  | .error _ => []

set_option maxRecDepth 10000 in
/-- C3 counterexample: with a content containing registered markers, the
second upsert parses a PATH_VALIDATION section out of the injected content
and renders a different document, so upsert is not idempotent as claimed for
arbitrary contents. -/
theorem upsert_not_idempotent :
    (updateCommentSection [] "BUILD_SIZE" pvInjection).toOption = some firstUpsert ∧
    (updateCommentSection firstUpsert "BUILD_SIZE" pvInjection).toOption ≠
      some firstUpsert := by
  constructor
  · decide
  · decide

/-- C3 (amended): upsert is idempotent whenever the new content and every
section content parsed from the body are free of registered markers. -/
theorem upsert_idempotent (body : List Char) (key : String) (k : SectionKey)
    (c1 : List Char) (hk : lookupSection key = some k) (hc : contentOK c1)
    (hbody : SectionsOK (parseCommentSections body)) :
    ∃ d1, updateCommentSection body key c1 = .ok d1 ∧
      updateCommentSection d1 key c1 = .ok d1 := by
  refine ⟨buildComment (setSection (parseCommentSections body) k c1), ?_, ?_⟩
  · simp only [updateCommentSection, hk]
  · simp only [updateCommentSection, hk]
    have hOK : SectionsOK (setSection (parseCommentSections body) k c1) :=
      sectionsOK_set hbody k hc
    rw [parse_build _ hOK, mapTrim_set, mapTrim_parse, set_set]

theorem upsert_idempotent_witness :
    contentOK "hi".toList ∧ SectionsOK (parseCommentSections []) ∧
    ∃ d1, updateCommentSection [] "BUILD_SIZE" "hi".toList = .ok d1 ∧
      updateCommentSection d1 "BUILD_SIZE" "hi".toList = .ok d1 :=
  ⟨by decide, by decide,
    upsert_idempotent [] "BUILD_SIZE" SectionKey.BUILD_SIZE "hi".toList rfl
      (by decide) (by decide)⟩

/-! ### C6: deletion collapse -/

/-- C6: removing the only parsed section, or removing any registered section
from a body that parses to no sections, yields the success value `null`. -/
theorem remove_collapse (body : List Char) (key : String) (k : SectionKey)
    (hk : lookupSection key = some k)
    (h : (getSection (parseCommentSections body) k ≠ none ∧
          ∀ k', k' ≠ k → getSection (parseCommentSections body) k' = none) ∨
         parseCommentSections body = emptySections) :
    removeCommentSection body key = .ok none := by
  simp only [removeCommentSection, hk]
  have herase : eraseSection (parseCommentSections body) k = emptySections := by
    rcases h with ⟨_, h2⟩ | h3
    · cases k with
      | BUILD_SIZE =>
        have hpv := h2 .PATH_VALIDATION (by decide)
        have hcn := h2 .CHANGE_NOTE (by decide)
        show { parseCommentSections body with buildSize := none } = emptySections
        rw [show getSection (parseCommentSections body) SectionKey.PATH_VALIDATION =
            (parseCommentSections body).pathValidation from rfl] at hpv
        rw [show getSection (parseCommentSections body) SectionKey.CHANGE_NOTE =
            (parseCommentSections body).changeNote from rfl] at hcn
        rw [emptySections, Sections.mk.injEq]
        exact ⟨rfl, hpv, hcn⟩
      | PATH_VALIDATION =>
        have hbs := h2 .BUILD_SIZE (by decide)
        have hcn := h2 .CHANGE_NOTE (by decide)
        show { parseCommentSections body with pathValidation := none } = emptySections
        rw [show getSection (parseCommentSections body) SectionKey.BUILD_SIZE =
            (parseCommentSections body).buildSize from rfl] at hbs
        rw [show getSection (parseCommentSections body) SectionKey.CHANGE_NOTE =
            (parseCommentSections body).changeNote from rfl] at hcn
        rw [emptySections, Sections.mk.injEq]
        exact ⟨hbs, rfl, hcn⟩
      | CHANGE_NOTE =>
        have hbs := h2 .BUILD_SIZE (by decide)
        have hpv := h2 .PATH_VALIDATION (by decide)
        show { parseCommentSections body with changeNote := none } = emptySections
        rw [show getSection (parseCommentSections body) SectionKey.BUILD_SIZE =
            (parseCommentSections body).buildSize from rfl] at hbs
        rw [show getSection (parseCommentSections body) SectionKey.PATH_VALIDATION =
            (parseCommentSections body).pathValidation from rfl] at hpv
        rw [emptySections, Sections.mk.injEq]
        exact ⟨hbs, hpv, rfl⟩
    · rw [h3]
      cases k <;> rfl
  rw [herase, if_pos rfl]

theorem remove_collapse_witness :
    (getSection (parseCommentSections
        "<!-- Build Size Section -->\nhi\n<!-- End Build Size Section -->".toList)
      SectionKey.BUILD_SIZE ≠ none) ∧
    removeCommentSection
      "<!-- Build Size Section -->\nhi\n<!-- End Build Size Section -->".toList
      "BUILD_SIZE" = .ok none ∧
    removeCommentSection [] "CHANGE_NOTE" = .ok none :=
  ⟨by decide,
   remove_collapse _ "BUILD_SIZE" SectionKey.BUILD_SIZE rfl
     (Or.inl ⟨by decide, by decide⟩),
   remove_collapse [] "CHANGE_NOTE" SectionKey.CHANGE_NOTE rfl
     (Or.inr (by decide))⟩

end Cerebrus

namespace Cerebrus

/-! ### C7 (corrected): deletion no-op -/

/-- A body whose parsed PATH_VALIDATION content smuggles a CHANGE_NOTE start
marker, with the real CHANGE_NOTE section placed before it in the body. -/
def pollutedBody : List Char :=
  ("<!-- Change Note Section -->\nR\n<!-- End Change Note Section -->\n" ++
   "<!-- Path Validation Section -->\nQ <!-- Change Note Section -->\n<!-- End Path Validation Section -->").toList

set_option maxRecDepth 10000 in
/-- C7 counterexample: (1) on a body parsing to no sections, removing an
absent section returns `null`, not the canonical guard-only serialization;
(2) re-serializing an already-canonical document (the canonical form of
`pollutedBody`) changes its bytes, because a marker inside a parsed content
shifts the spans of the re-parse. -/
theorem remove_noop_cex :
    ((removeCommentSection [] "BUILD_SIZE").toOption = some none ∧
      some (buildComment (parseCommentSections [])) ≠ (none : Option (List Char))) ∧
    buildComment (parseCommentSections (buildComment (parseCommentSections pollutedBody))) ≠
      buildComment (parseCommentSections pollutedBody) := by
  refine ⟨⟨?_, ?_⟩, ?_⟩
  · decide
  · decide
  · decide

/-- C7 (amended): when the body parses to at least one section and the
removed section is absent, `removeCommentSection` returns the canonical
serialization of the parsed sections; and that serialization re-parses (and
hence re-serializes) to the same value provided the parsed contents are free
of registered markers. -/
theorem remove_noop (body : List Char) (key : String) (k : SectionKey)
    (hk : lookupSection key = some k)
    (habsent : getSection (parseCommentSections body) k = none)
    (hnonempty : parseCommentSections body ≠ emptySections) :
    removeCommentSection body key =
      .ok (some (buildComment (parseCommentSections body))) ∧
    (SectionsOK (parseCommentSections body) →
      parseCommentSections (buildComment (parseCommentSections body)) =
        parseCommentSections body) := by
  constructor
  · simp only [removeCommentSection, hk, erase_absent habsent]
    rw [if_neg hnonempty]
  · intro hok
    rw [parse_build _ hok, mapTrim_parse]

theorem remove_noop_witness :
    (getSection (parseCommentSections
        "<!-- Change Note Section -->\nok\n<!-- End Change Note Section -->".toList)
      SectionKey.BUILD_SIZE = none) ∧
    removeCommentSection
        "<!-- Change Note Section -->\nok\n<!-- End Change Note Section -->".toList
        "BUILD_SIZE" =
      .ok (some (buildComment (parseCommentSections
        "<!-- Change Note Section -->\nok\n<!-- End Change Note Section -->".toList))) ∧
    parseCommentSections (buildComment (parseCommentSections
        "<!-- Change Note Section -->\nok\n<!-- End Change Note Section -->".toList)) =
      parseCommentSections
        "<!-- Change Note Section -->\nok\n<!-- End Change Note Section -->".toList :=
  ⟨by decide,
   (remove_noop _ "BUILD_SIZE" SectionKey.BUILD_SIZE rfl (by decide) (by decide)).1,
   (remove_noop _ "BUILD_SIZE" SectionKey.BUILD_SIZE rfl (by decide) (by decide)).2
     (by decide)⟩

end Cerebrus

namespace Cerebrus

/-! ### C4: render order decompositions -/

theorem renderBlocks_cons_ne (b : SectionKey × List Char)
    {rest : List (SectionKey × List Char)} (h : rest ≠ []) :
    renderBlocks (b :: rest) =
      blockStr b ++ ('\n' :: '\n' :: '-' :: '-' :: '-' :: renderBlocks rest) := by
  cases rest with
  | nil => exact absurd rfl h
  | cons b' r => rfl

/-- Any block of a rendered list appears with its full delimiters. -/
theorem renderBlocks_block_decomp :
    ∀ (l : List (SectionKey × List Char)) {k : SectionKey} {c : List Char},
      (k, c) ∈ l →
      ∃ x z, renderBlocks l = x ++ ((SECTIONS k).start ++
        (('\n' :: '\n' :: (c ++ ['\n', '\n'])) ++ ((SECTIONS k).stop ++ z)))
  | [], k, c, h => absurd h (List.not_mem_nil _)
  | [b], k, c, h => by
    have hb : (k, c) = b := List.mem_singleton.mp h
    subst hb
    refine ⟨['\n', '\n'], [], ?_⟩
    show blockStr (k, c) = _
    rw [blockStr]
    simp
  | b :: b' :: r, k, c, h => by
    rcases List.mem_cons.mp h with hb | hrest
    · subst hb
      refine ⟨['\n', '\n'],
        '\n' :: '\n' :: '-' :: '-' :: '-' :: renderBlocks (b' :: r), ?_⟩
      rw [renderBlocks_cons_ne _ (by simp), blockStr]
      simp
    · obtain ⟨x', z', hx'⟩ := renderBlocks_block_decomp (b' :: r) hrest
      refine ⟨blockStr b ++ ('\n' :: '\n' :: '-' :: '-' :: '-' :: x'), z', ?_⟩
      rw [renderBlocks_cons_ne _ (by simp), hx']
      simp

/-- Two blocks listed in order appear with their start markers in order. -/
theorem renderBlocks_order :
    ∀ (l1 : List (SectionKey × List Char)) (kA : SectionKey) (cA : List Char)
      (l2 : List (SectionKey × List Char)) (kB : SectionKey) (cB : List Char)
      (l3 : List (SectionKey × List Char)),
      ∃ x y z, renderBlocks (l1 ++ ((kA, cA) :: (l2 ++ ((kB, cB) :: l3)))) =
        x ++ ((SECTIONS kA).start ++ (y ++ ((SECTIONS kB).start ++ z)))
  | [], kA, cA, l2, kB, cB, l3 => by
    have hmem : (kB, cB) ∈ l2 ++ ((kB, cB) :: l3) :=
      List.mem_append_right l2 (List.mem_cons_self _ _)
    obtain ⟨x', z', hx'⟩ := renderBlocks_block_decomp _ hmem
    have hne : l2 ++ ((kB, cB) :: l3) ≠ [] := by simp
    refine ⟨['\n', '\n'],
      ('\n' :: '\n' :: (cA ++ ('\n' :: '\n' :: (SECTIONS kA).stop))) ++
        ('\n' :: '\n' :: '-' :: '-' :: '-' :: x'),
      ('\n' :: '\n' :: (cB ++ ['\n', '\n'])) ++ ((SECTIONS kB).stop ++ z'), ?_⟩
    rw [List.nil_append, renderBlocks_cons_ne _ hne, hx', blockStr]
    simp
  | b :: l1', kA, cA, l2, kB, cB, l3 => by
    obtain ⟨x', y, z, hx'⟩ := renderBlocks_order l1' kA cA l2 kB cB l3
    have hne : l1' ++ ((kA, cA) :: (l2 ++ ((kB, cB) :: l3))) ≠ [] := by simp
    refine ⟨blockStr b ++ ('\n' :: '\n' :: '-' :: '-' :: '-' :: x'), y, z, ?_⟩
    rw [List.cons_append, renderBlocks_cons_ne _ hne, hx']
    simp

theorem mem_activeList_of_get {s : Sections} {k : SectionKey} {c : List Char}
    (h : getSection s k = some c) : (k, c) ∈ activeList s := by
  cases k with
  | BUILD_SIZE =>
    rw [show getSection s SectionKey.BUILD_SIZE = s.buildSize from rfl] at h
    unfold activeList
    rw [h]
    exact List.mem_append_left _ (List.mem_singleton.mpr rfl)
  | PATH_VALIDATION =>
    rw [show getSection s SectionKey.PATH_VALIDATION = s.pathValidation from rfl] at h
    unfold activeList
    rw [h]
    exact List.mem_append_right _
      (List.mem_append_left _ (List.mem_singleton.mpr rfl))
  | CHANGE_NOTE =>
    rw [show getSection s SectionKey.CHANGE_NOTE = s.changeNote from rfl] at h
    unfold activeList
    rw [h]
    exact List.mem_append_right _
      (List.mem_append_right _ (List.mem_singleton.mpr rfl))

/-- Sections present in a section set are listed by strictly increasing
priority in `activeList`. -/
theorem activeList_order (s : Sections) {kA kB : SectionKey} {cA cB : List Char}
    (hA : getSection s kA = some cA) (hB : getSection s kB = some cB)
    (hprio : (SECTIONS kA).priority < (SECTIONS kB).priority) :
    ∃ l1 l2 l3, activeList s = l1 ++ ((kA, cA) :: (l2 ++ ((kB, cB) :: l3))) := by
  cases kA <;> cases kB <;>
    first
    | exact absurd hprio (by decide)
    | skip
  · -- BUILD_SIZE, PATH_VALIDATION
    rw [show getSection s SectionKey.BUILD_SIZE = s.buildSize from rfl] at hA
    rw [show getSection s SectionKey.PATH_VALIDATION = s.pathValidation from rfl] at hB
    refine ⟨[], [], optBlock .CHANGE_NOTE s.changeNote, ?_⟩
    unfold activeList
    rw [hA, hB]
    rfl
  · -- BUILD_SIZE, CHANGE_NOTE
    rw [show getSection s SectionKey.BUILD_SIZE = s.buildSize from rfl] at hA
    rw [show getSection s SectionKey.CHANGE_NOTE = s.changeNote from rfl] at hB
    refine ⟨[], optBlock .PATH_VALIDATION s.pathValidation, [], ?_⟩
    unfold activeList
    rw [hA, hB]
    rfl
  · -- PATH_VALIDATION, CHANGE_NOTE
    rw [show getSection s SectionKey.PATH_VALIDATION = s.pathValidation from rfl] at hA
    rw [show getSection s SectionKey.CHANGE_NOTE = s.changeNote from rfl] at hB
    refine ⟨optBlock .BUILD_SIZE s.buildSize, [], [], ?_⟩
    unfold activeList
    rw [hA, hB]
    rfl

/-- C4: render order is decided by registry priority, never by call order:
after upserting B then A, with priority(A) < priority(B), A's rendered start
marker occurs before B's in the result. -/
theorem priority_order_invariance (body ca cb : List Char) (keyA keyB : String)
    (kA kB : SectionKey) (hA : lookupSection keyA = some kA)
    (hB : lookupSection keyB = some kB)
    (hprio : (SECTIONS kA).priority < (SECTIONS kB).priority) :
    ∃ d0 d, updateCommentSection body keyB cb = .ok d0 ∧
      updateCommentSection d0 keyA ca = .ok d ∧
      ∃ x y z, d = x ++ ((SECTIONS kA).start ++ (y ++ ((SECTIONS kB).start ++ z))) := by
  have hkk : kB ≠ kA := by
    intro h
    rw [h] at hprio
    exact lt_irrefl _ hprio
  have hd0 : updateCommentSection body keyB cb =
      .ok (buildComment (setSection (parseCommentSections body) kB cb)) := by
    simp only [updateCommentSection, hB]
  have hBpresent : ∃ w, getSection (parseCommentSections
      (buildComment (setSection (parseCommentSections body) kB cb))) kB = some w := by
    have hmem : (kB, cb) ∈ activeList (setSection (parseCommentSections body) kB cb) :=
      mem_activeList_of_get (getSection_set_same _ kB cb)
    obtain ⟨x, z, hxz⟩ := renderBlocks_block_decomp _ hmem
    have hdoc : buildComment (setSection (parseCommentSections body) kB cb) =
        (CEREBRUS_IDENTIFIER ++ x) ++ ((SECTIONS kB).start ++
          (('\n' :: '\n' :: (cb ++ ['\n', '\n'])) ++ ((SECTIONS kB).stop ++ z))) := by
      rw [buildComment_renderDoc, renderDoc, hxz]
      simp
    have hfield : getSection (parseCommentSections
        (buildComment (setSection (parseCommentSections body) kB cb))) kB =
        (matchSpan (SECTIONS kB).start (SECTIONS kB).stop
          (buildComment (setSection (parseCommentSections body) kB cb))).map trimList := by
      cases kB <;> rfl
    rw [hfield]
    have hnn := matchSpan_ne_none_of_decomp (CEREBRUS_IDENTIFIER ++ x)
      (s := (SECTIONS kB).start) (e := (SECTIONS kB).stop)
      (y := '\n' :: '\n' :: (cb ++ ['\n', '\n'])) (z := z)
      (marker_ne_nil _ (start_mem_allMarkers kB))
    rw [← hdoc] at hnn
    cases hm : matchSpan (SECTIONS kB).start (SECTIONS kB).stop
        (buildComment (setSection (parseCommentSections body) kB cb)) with
    | none => exact absurd hm hnn
    | some t => exact ⟨trimList t, rfl⟩
  obtain ⟨w, hw⟩ := hBpresent
  have hd : updateCommentSection
      (buildComment (setSection (parseCommentSections body) kB cb)) keyA ca =
      .ok (buildComment (setSection (parseCommentSections
        (buildComment (setSection (parseCommentSections body) kB cb))) kA ca)) := by
    simp only [updateCommentSection, hA]
  have hgA : getSection (setSection (parseCommentSections
      (buildComment (setSection (parseCommentSections body) kB cb))) kA ca) kA =
      some ca := getSection_set_same _ kA ca
  have hgB : getSection (setSection (parseCommentSections
      (buildComment (setSection (parseCommentSections body) kB cb))) kA ca) kB =
      some w := by
    rw [getSection_set_other _ _ hkk]
    exact hw
  obtain ⟨l1, l2, l3, hl⟩ := activeList_order _ hgA hgB hprio
  obtain ⟨x, y, z, hxyz⟩ := renderBlocks_order l1 kA ca l2 kB w l3
  refine ⟨_, _, hd0, hd, CEREBRUS_IDENTIFIER ++ x, y, z, ?_⟩
  rw [buildComment_renderDoc, renderDoc, hl, hxyz, List.append_assoc]

theorem priority_order_invariance_witness :
    (SECTIONS SectionKey.BUILD_SIZE).priority <
      (SECTIONS SectionKey.PATH_VALIDATION).priority ∧
    ∃ d0 d, updateCommentSection [] "PATH_VALIDATION" "pv".toList = .ok d0 ∧
      updateCommentSection d0 "BUILD_SIZE" "bs".toList = .ok d ∧
      ∃ x y z, d = x ++ ((SECTIONS SectionKey.BUILD_SIZE).start ++
        (y ++ ((SECTIONS SectionKey.PATH_VALIDATION).start ++ z))) :=
  ⟨by decide,
   priority_order_invariance [] "bs".toList "pv".toList "BUILD_SIZE" "PATH_VALIDATION"
     SectionKey.BUILD_SIZE SectionKey.PATH_VALIDATION rfl rfl (by decide)⟩

end Cerebrus
